import Mathlib

/-!
Verification development for the `pj` project-jump tool.

The scanner (`src/scanner.rs`) is embedded over an explicit filesystem
tree: `FSEntry` models a directory entry, `visitedDirs` models the
bounded `WalkDir` traversal (`max_depth`, root at depth 0, symlinks not
followed), `hasMarker` models `is_project`, and `scan_core` /
`scan_projects` model the `scan_projects` loop with tilde expansion and
the missing-root warning path.

The matcher (`src/matcher.rs`) is a thin wrapper around the third-party
`nucleo` engine, whose source is not part of this repository; the
matching predicate and the relevance score are therefore modelled from
the spec (each such definition is marked `Modelled from the spec:`).
The wrapper's own behaviour (`add_projects` pushes every project's
`display_path` as the match column, `find_matches` filters by the
pattern) is embedded directly.
-/

namespace PJ

/-- A filesystem entry: a plain file or a directory with a list of child
entries.  Paths are lists of segment names, as `PathBuf` is a sequence
of components. -/
inductive FSEntry where
  | file (name : String)
  | dir (name : String) (children : List FSEntry)

mutual
/-- Decidable equality for filesystem entries (the nested `List` field
prevents deriving it). -/
def FSEntry.decEq : (a b : FSEntry) → Decidable (a = b)
  | .file n, .file m =>
      match String.decEq n m with
      | isTrue h => isTrue (by rw [h])
      | isFalse h => isFalse (by intro hh; cases hh; exact h rfl)
  | .file _, .dir _ _ => isFalse (by intro h; cases h)
  | .dir _ _, .file _ => isFalse (by intro h; cases h)
  | .dir n cs, .dir m ds =>
      match String.decEq n m with
      | isFalse h1 => isFalse (by intro hh; cases hh; exact h1 rfl)
      | isTrue h1 =>
          match FSEntry.decEqList cs ds with
          | isTrue h2 => isTrue (by rw [h1, h2])
          | isFalse h2 => isFalse (by intro hh; cases hh; exact h2 rfl)

/-- Decidable equality for lists of filesystem entries. -/
def FSEntry.decEqList : (as bs : List FSEntry) → Decidable (as = bs)
  | [], [] => isTrue rfl
  | [], _ :: _ => isFalse (by intro h; cases h)
  | _ :: _, [] => isFalse (by intro h; cases h)
  | a :: as, b :: bs =>
      match FSEntry.decEq a b with
      | isFalse h1 => isFalse (by intro hh; cases hh; exact h1 rfl)
      | isTrue h1 =>
          match FSEntry.decEqList as bs with
          | isTrue h2 => isTrue (by rw [h1, h2])
          | isFalse h2 => isFalse (by intro hh; cases hh; exact h2 rfl)
end

instance : DecidableEq FSEntry := FSEntry.decEq

instance : DecidableEq (List FSEntry) := FSEntry.decEqList

/-- Name of a filesystem entry. -/
def FSEntry.name : FSEntry → String
  | .file n => n
  | .dir n _ => n

/-- Embeds `is_project` (scanner.rs:31-33): a directory is a project iff
some marker name exists among its children, as a file or a directory
(`dir.join(marker).exists()` — existence only). -/
def hasMarker (children : List FSEntry) (markers : List String) : Bool :=
  markers.any (fun m => children.any (fun c => decide (c.name = m)))

/-- Embeds the `WalkDir::new(root).max_depth(k).follow_links(false)`
traversal of scanner.rs:50-55 restricted to directories (the loop body
keeps only `path.is_dir()` entries): the visited directories, each as
its path relative to the root (root itself is `[]`, at depth 0) paired
with its children.  A directory at relative depth `d` is visited only
while `d ≤ k`. -/
def visitedDirs : Nat → FSEntry → List (List String × List FSEntry)
  | _, .file _ => []
  | 0, .dir _ cs => [([], cs)]
  | k + 1, .dir _ cs =>
      ([], cs) ::
        cs.flatMap (fun c =>
          (visitedDirs k c).map (fun pr => (c.name :: pr.1, pr.2)))

/-- Embeds `Project` (scanner.rs:6-11): absolute path (as segments) and
the display path used for rendering and matching. -/
structure Project where
  path : List String
  display_path : String
deriving DecidableEq

/-- Embeds `Project::new` (scanner.rs:14-22).  The walker hands it
`path = scan_root ++ rel`, so `strip_prefix(scan_root)` yields `rel`;
`to_string_lossy` renders the relative components joined by `/`. -/
def Project.new (scanRoot rel : List String) : Project :=
  { path := scanRoot ++ rel, display_path := String.intercalate "/" rel }

/-- Scan configuration, embedding `Config` (config.rs:6-16) as the
scanner consumes it. -/
structure Config where
  scan_paths : List (List String)
  project_markers : List String
  max_depth : Nat

/-- Embeds `shellexpand::tilde` as used in scanner.rs:41: a leading `~`
segment is replaced by the home directory, anything else is kept. -/
def expandTilde (home : List String) : List String → List String
  | "~" :: rest => home ++ rest
  | p => p

/-- The filesystem visible to a scan: which root paths resolve to which
directory trees.  A path absent from the list does not exist. -/
abbrev Filesystem := List (List String × FSEntry)

/-- Resolving a path against the filesystem (`scan_path.exists()` plus
the subsequent walk both read from here). -/
def lookupRoot (fs : Filesystem) (p : List String) : Option FSEntry :=
  (fs.find? (fun pr => decide (pr.1 = p))).map Prod.snd

/-- Embeds the per-root body of `scan_projects` (scanner.rs:49-61): the
visited directories holding a marker, each turned into a `Project`
relative to this scan root. -/
def scanOneRoot (markers : List String) (maxDepth : Nat) (root : List String)
    (tree : FSEntry) : List Project :=
  ((visitedDirs maxDepth tree).filter (fun pr => hasMarker pr.2 markers)).map
    (fun pr => Project.new root pr.1)

/-- One iteration of the `for scan_path in &config.scan_paths` loop
(scanner.rs:39-62): expand the tilde, warn and continue when the root
does not exist (the warning is recorded as the expanded missing path,
matching the `eprintln!` argument), otherwise append the projects found
under it. -/
def scanStep (fs : Filesystem) (home : List String) (markers : List String)
    (maxDepth : Nat) (acc : List Project × List (List String))
    (p : List String) : List Project × List (List String) :=
  let q := expandTilde home p
  match lookupRoot fs q with
  | none => (acc.1, acc.2 ++ [q])
  | some t => (acc.1 ++ scanOneRoot markers maxDepth q t, acc.2)

/-- The accumulated projects and warnings of the `scan_projects` loop
(scanner.rs:36-62). -/
def scan_core (fs : Filesystem) (home : List String) (config : Config) :
    List Project × List (List String) :=
  config.scan_paths.foldl
    (scanStep fs home config.project_markers config.max_depth) ([], [])

/-- Embeds `scan_projects` (scanner.rs:36-65): the body can propagate no
error, so the function always returns `Ok` of the accumulated projects
(paired here with the warnings it printed along the way). -/
def scan_projects (fs : Filesystem) (home : List String) (config : Config) :
    Except String (List Project × List (List String)) :=
  Except.ok (scan_core fs home config)

/-- Projects contributed by a single configured root: the functional
reading of one `scanStep`. -/
def projectsOfRoot (fs : Filesystem) (home : List String) (markers : List String)
    (maxDepth : Nat) (p : List String) : List Project :=
  match lookupRoot fs (expandTilde home p) with
  | none => []
  | some t => scanOneRoot markers maxDepth (expandTilde home p) t

/-- Warning contributed by a single configured root, when it is missing. -/
def warningOfRoot (fs : Filesystem) (home : List String) (p : List String) :
    Option (List String) :=
  match lookupRoot fs (expandTilde home p) with
  | none => some (expandTilde home p)
  | some _ => none

/-- Resolving a relative segment path to the children of the directory
it denotes, within a tree (the filesystem's own notion of "the directory
at depth `d`", used to state completeness of the bounded walk). -/
def dirAt : FSEntry → List String → Option (List FSEntry)
  | .dir _ cs, [] => some cs
  | .file _, [] => none
  | .file _, _ :: _ => none
  | .dir _ cs, s :: rest =>
      match cs.find? (fun c => decide (c.name = s)) with
      | none => none
      | some c => dirAt c rest

/-- Boolean distinctness of a list of names. -/
def namesNodup : List String → Bool
  | [] => true
  | n :: ns => ns.all (fun m => decide (¬ m = n)) && namesNodup ns

mutual
/-- Well-formedness of a filesystem tree: sibling names are distinct at
every level, as they are in a real directory hierarchy. -/
def wf : FSEntry → Bool
  | .file _ => true
  | .dir _ cs => namesNodup (cs.map FSEntry.name) && wfList cs

/-- Well-formedness of a list of sibling trees. -/
def wfList : List FSEntry → Bool
  | [] => true
  | c :: cs => wf c && wfList cs
end

/-- Modelled from the spec: the greedy fuzzy-subsequence test of the
nucleo matching engine (not part of this repository) — every query
character must appear in the text in the same relative order, not
necessarily contiguously. -/
def isSubseq : List Char → List Char → Bool
  | [], _ => true
  | _ :: _, [] => false
  | a :: as, b :: bs => if a = b then isSubseq as bs else isSubseq (a :: as) bs

/-- Modelled from the spec: the match predicate of the nucleo engine
under `CaseMatching::Smart` (matcher.rs:44) — an empty pattern matches
everything; otherwise the pattern is a fuzzy subsequence of the text,
case-insensitively unless the pattern contains an uppercase letter. -/
def matchesQuery (q text : String) : Bool :=
  if q.data.isEmpty then true
  else if q.data.any Char.isUpper then isSubseq q.data text.data
  else isSubseq (q.data.map Char.toLower) (text.data.map Char.toLower)

/-- The smart-case subsequence property, stated relationally with
`List.Sublist` to be independent of the greedy algorithm. -/
def MatchSpec (q text : String) : Prop :=
  if q.data.any Char.isUpper then List.Sublist q.data text.data
  else List.Sublist (q.data.map Char.toLower) (text.data.map Char.toLower)

/-- Embeds `Matcher::add_projects` (matcher.rs:28-36): every given
project is pushed into the engine unconditionally, its `display_path`
as the match column; the matcher state is the list of pushed projects. -/
def Matcher.add_projects (state ps : List Project) : List Project :=
  state ++ ps

/-- Embeds `Matcher::find_matches` (matcher.rs:39-60) over the modelled
engine: the pushed projects whose `display_path` matches the pattern.
Result ordering (by descending nucleo score) is not modelled; the
claims settled against this definition concern membership and
multiplicity only. -/
def Matcher.find_matches (q : String) (state : List Project) : List Project :=
  state.filter (fun p => matchesQuery q p.display_path)

/-- Modelled from the spec: the characters that delimit path or word
segments for the boundary bonus of the relevance score. -/
def isSep (c : Char) : Bool :=
  decide (c = '/') || decide (c = '-') || decide (c = '_') ||
    decide (c = '.') || decide (c = ' ')

/-- Modelled from the spec: every embedding of the query characters into
the text as a strictly increasing list of positions (positions counted
from `i`).  The candidate matches iff at least one embedding exists. -/
def embedsFrom : List Char → List Char → Nat → List (List Nat)
  | [], _, _ => [[]]
  | _ :: _, [], _ => []
  | q :: qs, t :: ts, i =>
      (if q = t then (embedsFrom qs ts (i + 1)).map (fun e => i :: e) else []) ++
        embedsFrom (q :: qs) ts (i + 1)

/-- Longest run of consecutive positions in the tail of an embedding,
given the previous position, the current run length and the best run
seen so far. -/
def maxRunAux : Nat → Nat → Nat → List Nat → Nat
  | _, cur, best, [] => max best cur
  | prev, cur, best, j :: rest =>
      if j = prev + 1 then maxRunAux j (cur + 1) best rest
      else maxRunAux j 1 (max best cur) rest

/-- Longest run of consecutive positions in an embedding: the length of
the longest contiguous block of matched characters. -/
def maxRun : List Nat → Nat
  | [] => 0
  | i :: rest => maxRunAux i 1 0 rest

/-- Whether position `i` of the text is a segment boundary: the start of
the string, or right after a separator character. -/
def boundaryAt (t : List Char) (i : Nat) : Bool :=
  decide (i = 0) ||
    (match t.get? (i - 1) with
     | some c => isSep c
     | none => false)

/-- Modelled from the spec: the relevance-score components of one
embedding — contiguous run length, segment-boundary start, candidate
length and first matched position. -/
structure Score where
  run : Nat
  boundary : Bool
  len : Nat
  first : Nat
deriving DecidableEq

/-- Score of one embedding into a text. -/
def scoreOf (t : List Char) (e : List Nat) : Score :=
  { run := maxRun e
    boundary := boundaryAt t (e.headD 0)
    len := t.length
    first := e.headD 0 }

/-- Modelled from the spec: the lexicographic priority order on scores —
longer contiguous run first, then boundary start, then shorter
candidate, then earlier first matched position. -/
def Score.higher (a b : Score) : Bool :=
  if a.run = b.run then
    if a.boundary = b.boundary then
      if a.len = b.len then decide (a.first < b.first)
      else decide (a.len < b.len)
    else a.boundary
  else decide (b.run < a.run)

/-- Modelled from the spec: the best achievable score of a candidate
text for a query, under smart case; `none` when the candidate does not
match.  Boundary and length are read off the original text (case
folding preserves positions and separators). -/
def bestScore (q t : String) : Option Score :=
  let sensitive := q.data.any Char.isUpper
  let ql := if sensitive then q.data else q.data.map Char.toLower
  let tl := if sensitive then t.data else t.data.map Char.toLower
  match (embedsFrom ql tl 0).map (scoreOf t.data) with
  | [] => none
  | s :: ss => some (ss.foldl (fun best x => if Score.higher x best then x else best) s)

/-- Candidate `t1` is ranked above candidate `t2` for query `q`: both
match and the best score of `t1` is strictly higher. -/
def ranksAbove (q t1 t2 : String) : Prop :=
  ∃ s1 s2, bestScore q t1 = some s1 ∧ bestScore q t2 = some s2 ∧
    Score.higher s1 s2 = true

/-- Concrete tree for the depth-bound example: nesting
`level1/level2/level3/level4/.git`. -/
def c2tree : FSEntry :=
  .dir "r" [.dir "level1" [.dir "level2" [.dir "level3"
    [.dir "level4" [.dir ".git" []]]]]]

/-- Concrete filesystem for the depth-bound example, rooted at `r`. -/
def c2fs : Filesystem := [(["r"], c2tree)]

/-- Concrete tree for the duplicate-path counterexample: one project
`p` under the root. -/
def c5tree : FSEntry := .dir "r" [.dir "p" [.dir ".git" []]]

/-- Concrete filesystem for the duplicate-path counterexample. -/
def c5fs : Filesystem := [(["r"], c5tree)]

/-- Scan configuration repeating the same root twice. -/
def c5cfg : Config := { scan_paths := [["r"], ["r"]], project_markers := [".git"], max_depth := 2 }

/-- Two root paths are independent when neither equals or extends the
other, so no directory is reachable under both. -/
def independentRoots (a b : List String) : Prop :=
  (∀ s, a ++ s ≠ b) ∧ (∀ s, b ++ s ≠ a)

/-- Second concrete tree, for the independent-roots witness: one
project `q` under the root `s`. -/
def c5tree2 : FSEntry := .dir "s" [.dir "q" [.dir ".git" []]]

/-- Concrete filesystem with two independent roots `r` and `s`. -/
def c5fs2 : Filesystem := [(["r"], c5tree), (["s"], c5tree2)]

/-- Concrete project for the ingestion-idempotence counterexample. -/
def dupProj : Project := { path := ["home", "u", "proj", "a"], display_path := "a" }

/-- Concrete tree for the nested-marker example: `outer` carries a
marker and so does `outer/inner`. -/
def c8tree : FSEntry :=
  .dir "r" [.dir "outer" [.dir ".git" [], .dir "inner" [.dir ".git" []]]]

/-- Concrete filesystem for the missing-root example: only the root
`ok` exists. -/
def c9fs : Filesystem := [(["ok"], .dir "ok" [.dir "p" [.dir ".git" []]])]

/-- Concrete filesystem for the marker-at-root example, keyed by the
tilde-expanded root path. -/
def c10fs : Filesystem := [(["h", "proj"], .dir "proj" [.dir ".git" []])]

/-! Helper lemmas. -/

/-- The greedy subsequence test decides `List.Sublist`. -/
theorem isSubseq_iff_sublist (as bs : List Char) :
    isSubseq as bs = true ↔ List.Sublist as bs := by
  induction bs generalizing as with
  | nil =>
    cases as with
    | nil => simp [isSubseq]
    | cons a as => simp [isSubseq]
  | cons b bs ih =>
    cases as with
    | nil => simp [isSubseq, List.nil_sublist]
    | cons a as =>
      by_cases h : a = b
      · subst h
        rw [isSubseq, if_pos rfl, ih]
        constructor
        · exact fun hs => List.Sublist.cons₂ a hs
        · intro hs
          cases hs with
          | cons₂ _ hs => exact hs
          | cons _ hs => exact (List.sublist_cons_self a as).trans hs
      · rw [isSubseq, if_neg h, ih]
        constructor
        · exact fun hs => List.Sublist.cons b hs
        · intro hs
          cases hs with
          | cons₂ _ hs => exact absurd rfl h
          | cons _ hs => exact hs

/-- The executable match predicate agrees with the relational smart-case
subsequence property. -/
theorem matchesQuery_iff (q t : String) :
    matchesQuery q t = true ↔ MatchSpec q t := by
  unfold matchesQuery MatchSpec
  by_cases he : q.data.isEmpty = true
  · have hq : q.data = [] := by simpa using he
    simp [he, hq, List.nil_sublist]
  · by_cases hu : q.data.any Char.isUpper = true
    · simp [he, hu, isSubseq_iff_sublist]
    · simp [he, hu, isSubseq_iff_sublist]

/-- The empty pattern matches every candidate, so filtering is the
identity. -/
theorem find_matches_empty (state : List Project) :
    Matcher.find_matches "" state = state := by
  unfold Matcher.find_matches
  induction state with
  | nil => rfl
  | cons p ps ih => rw [List.filter_cons, if_pos (by rfl)]; rw [ih]

/-- Functional reading of the scan loop: folding `scanStep` over the
configured roots appends, per root, its projects and (for missing
roots) its warning. -/
theorem foldl_scanStep (fs : Filesystem) (home : List String)
    (markers : List String) (k : Nat) (l : List (List String))
    (acc : List Project × List (List String)) :
    l.foldl (scanStep fs home markers k) acc =
      (acc.1 ++ l.flatMap (projectsOfRoot fs home markers k),
       acc.2 ++ l.filterMap (warningOfRoot fs home)) := by
  induction l generalizing acc with
  | nil => simp
  | cons p l ih =>
    rw [List.foldl_cons, ih]
    unfold scanStep projectsOfRoot warningOfRoot
    cases hh : lookupRoot fs (expandTilde home p) <;> simp [hh]

/-- The scan accumulates exactly the per-root projects and the warnings
of the missing roots, in configuration order. -/
theorem scan_core_eq (fs : Filesystem) (home : List String) (config : Config) :
    scan_core fs home config =
      (config.scan_paths.flatMap
         (projectsOfRoot fs home config.project_markers config.max_depth),
       config.scan_paths.filterMap (warningOfRoot fs home)) := by
  unfold scan_core
  rw [foldl_scanStep]
  simp

/-- Boolean name distinctness agrees with `List.Nodup`. -/
theorem namesNodup_iff (l : List String) : namesNodup l = true ↔ l.Nodup := by
  induction l with
  | nil => simp [namesNodup]
  | cons n ns ih =>
    rw [namesNodup, Bool.and_eq_true, ih, List.nodup_cons]
    simp only [List.all_eq_true, decide_eq_true_eq]
    constructor
    · rintro ⟨h1, h2⟩
      exact ⟨fun hn => h1 n hn rfl, h2⟩
    · rintro ⟨h1, h2⟩
      exact ⟨fun m hm hmn => h1 (hmn ▸ hm), h2⟩

/-- Members of a well-formed sibling list are well-formed. -/
theorem wf_of_mem_wfList {cs : List FSEntry} (h : wfList cs = true) {c : FSEntry}
    (hc : c ∈ cs) : wf c = true := by
  induction cs with
  | nil => cases hc
  | cons d ds ih =>
    rw [wfList, Bool.and_eq_true] at h
    rcases List.mem_cons.mp hc with h1 | h1
    · exact h1 ▸ h.1
    · exact ih h.2 h1

/-- In a well-formed tree the visited directories have pairwise distinct
relative paths. -/
theorem visitedDirs_fst_nodup (k : Nat) (t : FSEntry) (h : wf t = true) :
    ((visitedDirs k t).map Prod.fst).Nodup := by
  induction k generalizing t with
  | zero =>
    cases t with
    | file n => simp [visitedDirs]
    | dir n cs => simp [visitedDirs]
  | succ k ih =>
    cases t with
    | file n => simp [visitedDirs]
    | dir n cs =>
      rw [wf, Bool.and_eq_true] at h
      obtain ⟨hnames, hlist⟩ := h
      rw [visitedDirs, List.map_cons, List.nodup_cons]
      have hmapform :
          (List.map Prod.fst (cs.flatMap fun c =>
            (visitedDirs k c).map fun pr => (c.name :: pr.1, pr.2))) =
          cs.flatMap fun c => (visitedDirs k c).map fun pr => c.name :: pr.1 := by
        rw [List.map_flatMap]
        apply List.flatMap_congr  -- may not exist; fallback below
        intro c _
        rw [List.map_map]
        rfl
      rw [hmapform]
      constructor
      · intro hmem
        obtain ⟨c, _, hmem2⟩ := List.mem_flatMap.mp hmem
        obtain ⟨pr, _, heq⟩ := List.mem_map.mp hmem2
        exact List.cons_ne_nil _ _ heq
      · rw [List.nodup_flatMap]
        constructor
        · intro c hc
          have hwfc : wf c = true := wf_of_mem_wfList hlist hc
          have : (visitedDirs k c).map (fun pr => c.name :: pr.1) =
              ((visitedDirs k c).map Prod.fst).map (fun l => c.name :: l) := by
            rw [List.map_map]; rfl
          rw [this]
          refine List.Nodup.map ?_ (ih c hwfc)
          intro x y hxy
          injection hxy
        · have hpn : List.Pairwise (fun c d : FSEntry => c.name ≠ d.name) cs := by
            have := (namesNodup_iff (cs.map FSEntry.name)).mp hnames
            rw [List.Nodup, List.pairwise_map] at this
            exact this
          refine hpn.imp ?_
          intro c d hne
          intro x hx hy
          obtain ⟨pr1, _, he1⟩ := List.mem_map.mp hx
          obtain ⟨pr2, _, he2⟩ := List.mem_map.mp hy
          rw [← he1] at he2
          injection he2 with h1 _
          exact hne h1.symm

/-- A list of pairs with pairwise distinct first components is a partial
function from first to second components. -/
theorem nodup_fst_functional {α β : Type} {l : List (α × β)}
    (h : (l.map Prod.fst).Nodup) {a : α} {b1 b2 : β}
    (h1 : (a, b1) ∈ l) (h2 : (a, b2) ∈ l) : b1 = b2 := by
  induction l with
  | nil => cases h1
  | cons p l ih =>
    rw [List.map_cons, List.nodup_cons] at h
    rcases List.mem_cons.mp h1 with e1 | e1 <;> rcases List.mem_cons.mp h2 with e2 | e2
    · have := e1.trans e2.symm
      injection this
    · exfalso
      apply h.1
      rw [← e1]
      exact List.mem_map.mpr ⟨(a, b2), e2, rfl⟩
    · exfalso
      apply h.1
      rw [← e2]
      exact List.mem_map.mpr ⟨(a, b1), e1, rfl⟩
    · exact ih h.2 e1 e2

/-- In a well-formed tree, a visited relative path determines its
children. -/
theorem visitedDirs_functional {k : Nat} {t : FSEntry} (hwf : wf t = true)
    {rel : List String} {cs1 cs2 : List FSEntry}
    (h1 : (rel, cs1) ∈ visitedDirs k t) (h2 : (rel, cs2) ∈ visitedDirs k t) :
    cs1 = cs2 :=
  nodup_fst_functional (visitedDirs_fst_nodup k t hwf) h1 h2

/-- Every visited directory lies at relative depth at most `k`. -/
theorem visitedDirs_depth_le (k : Nat) (t : FSEntry)
    (pr : List String × List FSEntry) (h : pr ∈ visitedDirs k t) :
    pr.1.length ≤ k := by
  induction k generalizing t pr with
  | zero =>
    cases t with
    | file n => cases h
    | dir n cs =>
      rw [visitedDirs] at h
      rw [List.mem_singleton.mp h]
      simp
  | succ k ih =>
    cases t with
    | file n => cases h
    | dir n cs =>
      rw [visitedDirs] at h
      rcases List.mem_cons.mp h with h2 | h2
      · rw [h2]; simp
      · obtain ⟨c, _, h3⟩ := List.mem_flatMap.mp h2
        obtain ⟨q, hq, he⟩ := List.mem_map.mp h3
        have := ih c q hq
        rw [← he]
        simpa using Nat.succ_le_succ this

/-- Completeness of the bounded walk: a directory reachable at relative
depth within the bound is visited. -/
theorem dirAt_mem_visitedDirs (rel : List String) (t : FSEntry)
    (cs : List FSEntry) (k : Nat) (h : dirAt t rel = some cs)
    (hk : rel.length ≤ k) : (rel, cs) ∈ visitedDirs k t := by
  induction rel generalizing t k with
  | nil =>
    cases t with
    | file n => simp [dirAt] at h
    | dir n ds =>
      rw [dirAt] at h
      cases h
      cases k with
      | zero => rw [visitedDirs]; exact List.mem_singleton.mpr rfl
      | succ k => rw [visitedDirs]; exact List.mem_cons_self _ _
  | cons s rest ih =>
    cases t with
    | file n => simp [dirAt] at h
    | dir n ds =>
      rw [dirAt] at h
      cases hf : ds.find? (fun c => decide (c.name = s)) with
      | none => rw [hf] at h; cases h
      | some c =>
        rw [hf] at h
        have hcmem : c ∈ ds := List.mem_of_find?_eq_some hf
        have hname : c.name = s := by simpa using List.find?_some hf
        cases k with
        | zero => simp at hk
        | succ k =>
          rw [visitedDirs]
          apply List.mem_cons_of_mem
          apply List.mem_flatMap.mpr
          refine ⟨c, hcmem, ?_⟩
          apply List.mem_map.mpr
          refine ⟨(rest, cs), ih c k h (by simpa using hk), ?_⟩
          rw [hname]

/-- A visited directory holding a marker is reported as a project. -/
theorem mem_scanOneRoot_of_marker {markers : List String} {k : Nat}
    {root : List String} {t : FSEntry} {rel : List String}
    {cs : List FSEntry} (hv : (rel, cs) ∈ visitedDirs k t)
    (hm : hasMarker cs markers = true) :
    Project.new root rel ∈ scanOneRoot markers k root t := by
  unfold scanOneRoot
  exact List.mem_map.mpr ⟨(rel, cs), List.mem_filter.mpr ⟨hv, hm⟩, rfl⟩

/-- Over a well-formed tree, one root contributes pairwise distinct
project paths. -/
theorem scanOneRoot_paths_nodup (markers : List String) (k : Nat)
    (root : List String) (t : FSEntry) (hwf : wf t = true) :
    ((scanOneRoot markers k root t).map Project.path).Nodup := by
  unfold scanOneRoot
  rw [List.map_map]
  have h1 : (Project.path ∘ fun pr : List String × List FSEntry =>
      Project.new root pr.1) = (fun l => root ++ l) ∘ Prod.fst := rfl
  rw [h1, ← List.map_map]
  refine List.Nodup.map (fun x y hxy => List.append_cancel_left hxy) ?_
  have hsub : (((visitedDirs k t).filter
        (fun pr => hasMarker pr.2 markers)).map Prod.fst).Sublist
      ((visitedDirs k t).map Prod.fst) :=
    (List.filter_sublist _).map Prod.fst
  exact hsub.nodup (visitedDirs_fst_nodup k t hwf)

/-- Two decompositions of one list have comparable first parts: one of
them extends the other. -/
theorem append_parts_comparable {α : Type} :
    ∀ (a c b d : List α), a ++ b = c ++ d →
      (∃ s, a ++ s = c) ∨ (∃ s, c ++ s = a)
  | [], c, _, _, _ => Or.inl ⟨c, rfl⟩
  | x :: a, [], _, _, _ => Or.inr ⟨x :: a, rfl⟩
  | x :: a, y :: c, b, d, h => by
      injection h with h1 h2
      rcases append_parts_comparable a c b d h2 with ⟨s, hs⟩ | ⟨s, hs⟩
      · exact Or.inl ⟨s, by rw [List.cons_append, hs, h1]⟩
      · exact Or.inr ⟨s, by rw [List.cons_append, hs, ← h1]⟩

/-- Every path contributed by one configured root starts with that
root's expanded path. -/
theorem path_mem_projectsOfRoot {fs : Filesystem} {home : List String}
    {markers : List String} {k : Nat} {r : List String} {x : List String}
    (h : x ∈ (projectsOfRoot fs home markers k r).map Project.path) :
    ∃ rel, x = expandTilde home r ++ rel := by
  cases hl : lookupRoot fs (expandTilde home r) with
  | none =>
    have hz : projectsOfRoot fs home markers k r = [] := by
      unfold projectsOfRoot
      rw [hl]
    rw [hz] at h
    cases h
  | some t =>
    have he : projectsOfRoot fs home markers k r =
        scanOneRoot markers k (expandTilde home r) t := by
      unfold projectsOfRoot
      rw [hl]
    rw [he] at h
    unfold scanOneRoot at h
    rw [List.map_map] at h
    obtain ⟨pr, _, hpe⟩ := List.mem_map.mp h
    exact ⟨pr.1, hpe.symm⟩

/-- One configured root over a well-formed tree contributes pairwise
distinct project paths. -/
theorem projectsOfRoot_paths_nodup {fs : Filesystem} {home : List String}
    {markers : List String} {k : Nat} {r : List String}
    (hwf : ∀ t, lookupRoot fs (expandTilde home r) = some t → wf t = true) :
    ((projectsOfRoot fs home markers k r).map Project.path).Nodup := by
  cases hl : lookupRoot fs (expandTilde home r) with
  | none =>
    have hz : projectsOfRoot fs home markers k r = [] := by
      unfold projectsOfRoot
      rw [hl]
    rw [hz]
    exact List.nodup_nil
  | some t =>
    have he : projectsOfRoot fs home markers k r =
        scanOneRoot markers k (expandTilde home r) t := by
      unfold projectsOfRoot
      rw [hl]
    rw [he]
    exact scanOneRoot_paths_nodup markers k (expandTilde home r) t (hwf t hl)

/-! Claim theorems. -/

/-- C1: for every ingested candidate set and every non-empty query `q`,
`find_matches` returns a candidate iff every character of `q` appears
in the candidate's `display_path` in the same relative order (not
necessarily contiguously) — case-insensitively when `q` contains no
uppercase letter, case-sensitively otherwise — with path separators
participating as ordinary characters. -/
theorem C1_fuzzy_subsequence_smart_case (state : List Project) (p : Project)
    (q : String) (hq : q ≠ "") :
    p ∈ Matcher.find_matches q state ↔
      p ∈ state ∧ MatchSpec q p.display_path := by
  unfold Matcher.find_matches
  rw [List.mem_filter, matchesQuery_iff]

/-- Witness for C1: `ai/dec` selects `ai/decree-ng` among distractors,
and lowercase `myapp` matches `MyApp`. -/
theorem C1_fuzzy_subsequence_smart_case_witness :
    (Project.mk ["r", "ai", "decree-ng"] "ai/decree-ng" ∈
      Matcher.find_matches "ai/dec"
        [Project.mk ["r", "ai", "decree-ng"] "ai/decree-ng",
         Project.mk ["r", "web", "app"] "web/app"]) ∧
    MatchSpec "myapp" "MyApp" :=
  ⟨(C1_fuzzy_subsequence_smart_case
        [Project.mk ["r", "ai", "decree-ng"] "ai/decree-ng",
         Project.mk ["r", "web", "app"] "web/app"]
        (Project.mk ["r", "ai", "decree-ng"] "ai/decree-ng") "ai/dec"
        (by decide)).mpr
      ⟨by decide, (matchesQuery_iff "ai/dec" "ai/decree-ng").mp (by decide)⟩,
    (matchesQuery_iff "myapp" "MyApp").mp (by decide)⟩

/-- C2: the scanner visits a directory at relative depth `d` only while
`d ≤ max_depth` (root at depth 0), a qualifying directory within the
bound is found, and on the `level1/level2/level3/level4/.git` nesting
`max_depth = 3` finds no project while `max_depth = 4` finds exactly
`level1/level2/level3/level4`. -/
theorem C2_depth_bound :
    (∀ (k : Nat) (t : FSEntry) (pr : List String × List FSEntry),
        pr ∈ visitedDirs k t → pr.1.length ≤ k) ∧
    (∀ (markers : List String) (k : Nat) (root rel : List String)
        (t : FSEntry) (cs : List FSEntry),
        dirAt t rel = some cs → rel.length ≤ k →
        hasMarker cs markers = true →
        Project.new root rel ∈ scanOneRoot markers k root t) ∧
    (scan_core c2fs [] ⟨[["r"]], [".git"], 3⟩).1 = [] ∧
    (scan_core c2fs [] ⟨[["r"]], [".git"], 4⟩).1 =
      [Project.new ["r"] ["level1", "level2", "level3", "level4"]] := by
  refine ⟨visitedDirs_depth_le, ?_, by decide, by decide⟩
  intro markers k root rel t cs h hk hm
  exact mem_scanOneRoot_of_marker (dirAt_mem_visitedDirs rel t cs k h hk) hm

/-- Witness for C2: the deep project is produced at `max_depth = 4` via
the completeness part of the theorem. -/
theorem C2_depth_bound_witness :
    Project.new ["r"] ["level1", "level2", "level3", "level4"] ∈
      scanOneRoot [".git"] 4 ["r"] c2tree :=
  C2_depth_bound.2.1 [".git"] 4 ["r"] ["level1", "level2", "level3", "level4"]
    c2tree [FSEntry.dir ".git" []] (by decide) (by decide) (by decide)

/-- C3: querying with the empty string returns every ingested
candidate, in particular the result count equals the ingested count. -/
theorem C3_empty_query_returns_all (state : List Project) :
    Matcher.find_matches "" state = state :=
  find_matches_empty state

/-- C5 counterexample: configuring the same root twice makes the
scanner return the same project path twice, so the scan output is not
duplicate-free when the configured roots overlap or repeat. -/
theorem C5_counterexample :
    scan_projects c5fs [] c5cfg = Except.ok (scan_core c5fs [] c5cfg) ∧
    ¬ ((scan_core c5fs [] c5cfg).1.map Project.path).Nodup :=
  ⟨rfl, by decide⟩

/-- C5 amended: for every scan configuration whose configured roots
are, after tilde expansion, pairwise independent (no root equal to or
extending another, so no directory is reachable under two roots), over
filesystem trees with distinct sibling names, the scanner never returns
two entries with the same path; repeated or overlapping roots can
produce duplicates, as the scanner performs no deduplication. -/
theorem C5_independent_roots_no_duplicate_paths (fs : Filesystem)
    (home : List String) (config : Config)
    (hwf : ∀ r ∈ config.scan_paths, ∀ t,
        lookupRoot fs (expandTilde home r) = some t → wf t = true)
    (hind : (config.scan_paths.map (expandTilde home)).Pairwise
        independentRoots) :
    (((scan_core fs home config).1).map Project.path).Nodup := by
  rw [scan_core_eq]
  rw [List.map_flatMap, List.nodup_flatMap]
  constructor
  · intro r hr
    exact projectsOfRoot_paths_nodup (fun t ht => hwf r hr t ht)
  · have hp : List.Pairwise
        (fun a b => independentRoots (expandTilde home a) (expandTilde home b))
        config.scan_paths := List.pairwise_map.mp hind
    refine hp.imp ?_
    intro r1 r2 hind12
    intro x hx1 hx2
    obtain ⟨rel1, he1⟩ := path_mem_projectsOfRoot hx1
    obtain ⟨rel2, he2⟩ := path_mem_projectsOfRoot hx2
    rcases append_parts_comparable (expandTilde home r1) (expandTilde home r2)
        rel1 rel2 (he1.symm.trans he2) with ⟨s, hs⟩ | ⟨s, hs⟩
    · exact hind12.1 s hs
    · exact hind12.2 s hs

/-- Witness for C5 amended: scanning the two independent roots `r` and
`s` together returns pairwise distinct project paths. -/
theorem C5_independent_roots_no_duplicate_paths_witness :
    (((scan_core c5fs2 [] ⟨[["r"], ["s"]], [".git"], 2⟩).1).map
        Project.path).Nodup :=
  C5_independent_roots_no_duplicate_paths c5fs2 []
    ⟨[["r"], ["s"]], [".git"], 2⟩
    (by
      intro r hr t ht
      rcases List.mem_cons.mp hr with h | h
      · subst h
        have hv : lookupRoot c5fs2 (expandTilde [] ["r"]) = some c5tree := by
          decide
        rw [hv] at ht
        cases ht
        decide
      · rcases List.mem_cons.mp h with h2 | h2
        · subst h2
          have hv : lookupRoot c5fs2 (expandTilde [] ["s"]) = some c5tree2 := by
            decide
          rw [hv] at ht
          cases ht
          decide
        · cases h2)
    (by
      show List.Pairwise independentRoots [["r"], ["s"]]
      refine List.pairwise_cons.mpr ⟨?_, List.pairwise_singleton _ _⟩
      intro b hb
      rw [List.mem_singleton.mp hb]
      constructor
      · intro s hs
        injection hs with h1 _
        exact absurd h1 (by decide)
      · intro s hs
        injection hs with h1 _
        exact absurd h1 (by decide))

/-- C6 counterexample: ingesting the same project twice yields
duplicate entries by path in the query results, so `add_projects` is
not idempotent per distinct path. -/
theorem C6_counterexample :
    ¬ (((Matcher.find_matches ""
          (Matcher.add_projects (Matcher.add_projects [] [dupProj])
            [dupProj])).map Project.path).Nodup) := by
  decide

/-- C6 amended: `add_projects` appends every given project
unconditionally; ingesting a project whose path is already present adds
it again, and subsequent query results contain that path at least
twice. -/
theorem C6_add_projects_not_idempotent (state : List Project) (p : Project)
    (h : p ∈ state) :
    2 ≤ ((Matcher.find_matches "" (Matcher.add_projects state [p])).map
          Project.path).count p.path := by
  rw [find_matches_empty]
  unfold Matcher.add_projects
  rw [List.map_append, List.count_append]
  have h1 : 0 < (state.map Project.path).count p.path :=
    List.count_pos_iff.mpr (List.mem_map.mpr ⟨p, h, rfl⟩)
  have h2 : (([p].map Project.path).count p.path) = 1 := by simp
  omega

/-- Witness for C6 amended: re-ingesting the concrete duplicate project
doubles its path. -/
theorem C6_add_projects_not_idempotent_witness :
    2 ≤ ((Matcher.find_matches "" (Matcher.add_projects [dupProj]
          [dupProj])).map Project.path).count dupProj.path :=
  C6_add_projects_not_idempotent [dupProj] dupProj (by decide)

/-- C7: the modelled relevance score orders matching candidates by the
spec's relative priority — longer contiguous run first, then
segment-boundary start, then shorter candidate, then earlier first
matched position — and the acronym query `map` matches
`my-awesome-project` with full boundary credit despite being
non-contiguous. -/
theorem C7_scoring_priorities :
    (∀ (q t1 t2 : String) (s1 s2 : Score),
        bestScore q t1 = some s1 → bestScore q t2 = some s2 →
        ((s2.run < s1.run → ranksAbove q t1 t2) ∧
         (s1.run = s2.run → s1.boundary = true → s2.boundary = false →
            ranksAbove q t1 t2) ∧
         (s1.run = s2.run → s1.boundary = s2.boundary → s1.len < s2.len →
            ranksAbove q t1 t2) ∧
         (s1.run = s2.run → s1.boundary = s2.boundary → s1.len = s2.len →
            s1.first < s2.first → ranksAbove q t1 t2))) ∧
    (∃ s : Score, bestScore "map" "my-awesome-project" = some s ∧
        s.boundary = true) := by
  constructor
  · intro q t1 t2 s1 s2 h1 h2
    refine ⟨?_, ?_, ?_, ?_⟩
    · intro hr
      refine ⟨s1, s2, h1, h2, ?_⟩
      unfold Score.higher
      rw [if_neg (by omega)]
      exact decide_eq_true hr
    · intro he hb1 hb2
      refine ⟨s1, s2, h1, h2, ?_⟩
      unfold Score.higher
      rw [if_pos he, if_neg (by rw [hb1, hb2]; decide)]
      exact hb1
    · intro he hb hl
      refine ⟨s1, s2, h1, h2, ?_⟩
      unfold Score.higher
      rw [if_pos he, if_pos hb, if_neg (by omega)]
      exact decide_eq_true hl
    · intro he hb hl hf
      refine ⟨s1, s2, h1, h2, ?_⟩
      unfold Score.higher
      rw [if_pos he, if_pos hb, if_pos hl]
      exact decide_eq_true hf
  · exact ⟨⟨1, true, 18, 0⟩, by decide, rfl⟩

/-- Witness for C7: a contiguous match on `ab` outranks the scattered
match in `a-b`. -/
theorem C7_scoring_priorities_witness : ranksAbove "ab" "ab" "a-b" :=
  (C7_scoring_priorities.1 "ab" "ab" "a-b" ⟨2, true, 2, 0⟩ ⟨1, true, 3, 0⟩
      (by decide) (by decide)).1 (by decide)

/-- C8: a visited directory is reported as a project root iff at least
one configured marker exists among its children (existence only); a
directory nested inside another project root is evaluated independently
and reported when it qualifies. -/
theorem C8_marker_iff (markers : List String) (k : Nat) (root : List String)
    (t : FSEntry) (hwf : wf t = true) (rel : List String)
    (cs : List FSEntry) (hv : (rel, cs) ∈ visitedDirs k t) :
    Project.new root rel ∈ scanOneRoot markers k root t ↔
      hasMarker cs markers = true := by
  constructor
  · intro hmem
    unfold scanOneRoot at hmem
    obtain ⟨⟨rel2, cs2⟩, hpr, he⟩ := List.mem_map.mp hmem
    obtain ⟨hprv, hprm⟩ := List.mem_filter.mp hpr
    have hrel : rel2 = rel := by
      have : root ++ rel2 = root ++ rel := congrArg Project.path he
      exact List.append_cancel_left this
    rw [hrel] at hprv
    rw [visitedDirs_functional hwf hprv hv] at hprm
    exact hprm
  · intro hm
    exact mem_scanOneRoot_of_marker hv hm

/-- Witness for C8: in the nested example both `outer` and
`outer/inner` carry a marker and both are reported. -/
theorem C8_marker_iff_witness :
    Project.new ["r"] ["outer"] ∈ scanOneRoot [".git"] 3 ["r"] c8tree ∧
    Project.new ["r"] ["outer", "inner"] ∈
      scanOneRoot [".git"] 3 ["r"] c8tree :=
  ⟨(C8_marker_iff [".git"] 3 ["r"] c8tree (by decide) ["outer"]
      [FSEntry.dir ".git" [], FSEntry.dir "inner" [FSEntry.dir ".git" []]]
      (by decide)).mpr (by decide),
    (C8_marker_iff [".git"] 3 ["r"] c8tree (by decide) ["outer", "inner"]
      [FSEntry.dir ".git" []] (by decide)).mpr (by decide)⟩

/-- C9: a configured root that does not resolve is warned about and
skipped, the scan does not fail, and the remaining roots contribute
exactly their projects. -/
theorem C9_missing_root_tolerated (fs : Filesystem) (home : List String)
    (pre post : List (List String)) (m : List String)
    (markers : List String) (k : Nat)
    (hm : lookupRoot fs (expandTilde home m) = none) :
    (scan_core fs home ⟨pre ++ m :: post, markers, k⟩).1 =
      (scan_core fs home ⟨pre ++ post, markers, k⟩).1 ∧
    expandTilde home m ∈ (scan_core fs home ⟨pre ++ m :: post, markers, k⟩).2 ∧
    scan_projects fs home ⟨pre ++ m :: post, markers, k⟩ =
      Except.ok (scan_core fs home ⟨pre ++ m :: post, markers, k⟩) := by
  refine ⟨?_, ?_, rfl⟩
  · rw [scan_core_eq, scan_core_eq]
    simp only [List.flatMap_append, List.flatMap_cons]
    have hz : projectsOfRoot fs home markers k m = [] := by
      unfold projectsOfRoot
      rw [hm]
    rw [hz]
    simp
  · rw [scan_core_eq]
    simp only [List.filterMap_append, List.filterMap_cons]
    have hw : warningOfRoot fs home m = some (expandTilde home m) := by
      unfold warningOfRoot
      rw [hm]
    rw [hw]
    simp

/-- Witness for C9: scanning `ok` together with the nonexistent root
`missing` warns about `missing` and returns the projects of `ok`
alone. -/
theorem C9_missing_root_tolerated_witness :
    (scan_core c9fs [] ⟨[["ok"], ["missing"]], [".git"], 2⟩).1 =
      (scan_core c9fs [] ⟨[["ok"]], [".git"], 2⟩).1 ∧
    ["missing"] ∈ (scan_core c9fs [] ⟨[["ok"], ["missing"]], [".git"], 2⟩).2 ∧
    scan_projects c9fs [] ⟨[["ok"], ["missing"]], [".git"], 2⟩ =
      Except.ok (scan_core c9fs [] ⟨[["ok"], ["missing"]], [".git"], 2⟩) :=
  C9_missing_root_tolerated c9fs [] [["ok"]] [] ["missing"] [".git"] 2 rfl

/-- C10: a scan root that itself contains a configured marker is
reported as a project whose path is the tilde-expanded root and whose
display path is the empty string. -/
theorem C10_root_project_empty_display (fs : Filesystem)
    (home : List String) (config : Config) (r : List String) (n : String)
    (cs : List FSEntry) (hr : r ∈ config.scan_paths)
    (hlk : lookupRoot fs (expandTilde home r) = some (FSEntry.dir n cs))
    (hm : hasMarker cs config.project_markers = true) :
    Project.mk (expandTilde home r) "" ∈ (scan_core fs home config).1 := by
  rw [scan_core_eq]
  apply List.mem_flatMap.mpr
  refine ⟨r, hr, ?_⟩
  unfold projectsOfRoot
  rw [hlk]
  have hv : (([] : List String), cs) ∈
      visitedDirs config.max_depth (FSEntry.dir n cs) := by
    cases config.max_depth with
    | zero => rw [visitedDirs]; exact List.mem_singleton.mpr rfl
    | succ k => rw [visitedDirs]; exact List.mem_cons_self _ _
  have hmem :
      Project.new (expandTilde home r) [] ∈
        scanOneRoot config.project_markers config.max_depth
          (expandTilde home r) (FSEntry.dir n cs) :=
    mem_scanOneRoot_of_marker hv hm
  simpa [Project.new] using hmem

/-- Witness for C10: the tilde-written root `~/proj` carrying `.git` is
itself reported with an empty display path. -/
theorem C10_root_project_empty_display_witness :
    Project.mk ["h", "proj"] "" ∈
      (scan_core c10fs ["h"] ⟨[["~", "proj"]], [".git"], 1⟩).1 :=
  C10_root_project_empty_display c10fs ["h"] ⟨[["~", "proj"]], [".git"], 1⟩
    ["~", "proj"] "proj" [FSEntry.dir ".git" []] (by decide) (by decide)
    (by decide)

end PJ
